import Mathlib

/-!
# Verification of the Footnote Reconciliation & Semantic-Diff Engine

A shallow embedding, over `List Char` / `String`, of the core algorithms of
the `rag-footprint` repository:

* the footnote registry fold and backfill pass of `slm_footnote_stitcher`
  (`src/LangGraph_Footnote_RAG_Advanced.py`),
* the page-aware batcher `_page_aware_sections`,
* the boundary-protecting pre-processing of `enriched_chunker`,
* the multi-query retrieval deduplicator `_multi_query_retrieve`,
* the cosine-similarity / semantic-diff helpers of
  `src/audit_report_generator.py`,
* the sentence segmenter `_split_sentences`.

Python strings are modelled as `List Char` (or `String`, whose data is a
`List Char`); Python dicts keyed by `int` are modelled as functions
`Nat → Option _`; floating-point numbers are modelled as elements of a
linearly ordered field (instantiated at `ℚ` or `ℝ`).
-/

namespace RagFootprint

/-! ## Character and string utilities -/

/-- Match a literal character list at the head of the input, returning the
remaining input on success (the building block for the concrete regular
expressions used by the pipeline). -/
def litPrefix : List Char → List Char → Option (List Char)
  | [], cs => some cs
  | _ :: _, [] => none
  | l :: ls, c :: cs => if c = l then litPrefix ls cs else none

/-- Substring containment test (Python's `needle in hay`). -/
def containsSub (needle : List Char) : List Char → Bool
  | [] => needle.isEmpty
  | c :: t => (litPrefix needle (c :: t)).isSome || containsSub needle t

/-- ASCII upper-casing of one character (the effect of Python's
`str.upper` on the characters appearing in this pipeline). -/
def upChar (c : Char) : Char :=
  if 'a' ≤ c ∧ c ≤ 'z' then Char.ofNat (c.toNat - 32) else c

/-- The test `"MISSING" in s.upper()` — the missing-content sentinel test used by
`slm_footnote_stitcher`. -/
def isMissing (s : String) : Bool :=
  containsSub "MISSING".data (s.data.map upChar)

/-- Python's whitespace class (`\s` over the characters relevant here). -/
def isPySpace (c : Char) : Bool :=
  c = ' ' || c = '\t' || c = '\n' || c = '\r' || c = '\x0b' || c = '\x0c'

/-- Python's `str.strip()` on a character list. -/
def pyStrip (cs : List Char) : List Char :=
  ((cs.dropWhile isPySpace).reverse.dropWhile isPySpace).reverse

@[simp] theorem litPrefix_nil (cs : List Char) : litPrefix [] cs = some cs := rfl

theorem litPrefix_append {lit cs rest : List Char}
    (h : litPrefix lit cs = some rest) : cs = lit ++ rest := by
  induction lit generalizing cs with
  | nil => simpa [litPrefix] using h
  | cons l ls ih =>
    cases cs with
    | nil => simp [litPrefix] at h
    | cons c t =>
      simp only [litPrefix] at h
      split at h
      · next heq => simpa [heq] using congrArg (c :: ·) (ih h)
      · exact absurd h (by simp)

theorem litPrefix_length_le {lit cs rest : List Char}
    (h : litPrefix lit cs = some rest) : rest.length ≤ cs.length := by
  have := litPrefix_append h
  subst this
  simp

theorem dropWhile_length_le (p : Char → Bool) (l : List Char) :
    (l.dropWhile p).length ≤ l.length := by
  induction l with
  | nil => simp
  | cons c t ih =>
    by_cases h : p c
    · simp only [List.dropWhile, h]
      exact le_trans ih (Nat.le_succ _)
    · simp [List.dropWhile, h]

/-! ## Footnote records and the registry fold

From `slm_footnote_stitcher`, step 4 ("Extract + smart de-duplicate
footnote registry").  The Python `dict[int, dict]` registry is modelled as
a function `Nat → Option Footnote`. -/

/-- One footnote record `{"marker": .., "text": .., "status": ..}`. -/
structure Footnote where
  marker : Nat
  text : String
  status : String
deriving DecidableEq, Repr

/-- Write `registry[marker] = fn` on the function model of the dict. -/
def regSet (reg : Nat → Option Footnote) (fn : Footnote) : Nat → Option Footnote :=
  fun m => if m = fn.marker then some fn else reg m

/-- One iteration of the de-duplication loop of step 4:

```
is_missing = "MISSING" in fn["text"].upper()
existing = registry.get(marker)
if existing is None:
    registry[marker] = fn
elif "MISSING" in existing["text"].upper() and not is_missing:
    registry[marker] = fn
elif not is_missing and len(fn["text"]) > len(existing["text"]):
    registry[marker] = fn
``` -/
def stepOcc (reg : Nat → Option Footnote) (fn : Footnote) : Nat → Option Footnote :=
  match reg fn.marker with
  | none => regSet reg fn
  | some existing =>
    if isMissing existing.text && !isMissing fn.text then regSet reg fn
    else if !isMissing fn.text && fn.text.length > existing.text.length then regSet reg fn
    else reg

/-- The registry built by folding all extracted inline-annotation
occurrences in source order. -/
def buildRegistry (occs : List Footnote) : Nat → Option Footnote :=
  occs.foldl stepOcc (fun _ => none)

/-! ## The sentinel-annotation pattern and `re.sub`

Step 5 of `slm_footnote_stitcher` patches the healed text with

```
re.sub(rf"\\x7b\x7bFOOTNOTE\s*\[\x7bmarker\x7d\]\s*:\s*MISSING[^\x7d\x7d]*\\x7d\x7d",
       f"\x7b\x7bFOOTNOTE [\x7bmarker\x7d]: \x7bdefn_text\x7d\x7d\x7d", healed_text, count=0)
```

The pattern is deterministic: each `\s*` is a maximal whitespace run (no
later literal can match a whitespace character, so backtracking never
helps), and `[^}]*\}` extends to the first `}` after `MISSING`. -/

/-- Try to match `\{FOOTNOTE\s*\[<m>\]\s*:\s*MISSING[^}]*\}` at the head of
the input; on success return the input remaining after the match. -/
def matchFNM (m : Nat) (cs : List Char) : Option (List Char) :=
  match litPrefix "\x7bFOOTNOTE".data cs with
  | none => none
  | some r1 =>
    match litPrefix ("[" ++ toString m ++ "]").data (r1.dropWhile isPySpace) with
    | none => none
    | some r2 =>
      match litPrefix ":".data (r2.dropWhile isPySpace) with
      | none => none
      | some r3 =>
        match litPrefix "MISSING".data (r3.dropWhile isPySpace) with
        | none => none
        | some r4 =>
          match r4.dropWhile (fun c => c ≠ '}') with
          | '}' :: r5 => some r5
          | _ => none

theorem matchFNM_length {m : Nat} {cs rest : List Char}
    (h : matchFNM m cs = some rest) : rest.length < cs.length := by
  unfold matchFNM at h
  split at h
  · exact absurd h (by simp)
  · next r1 h1 =>
    split at h
    · exact absurd h (by simp)
    · next r2 h2 =>
      split at h
      · exact absurd h (by simp)
      · next r3 h3 =>
        split at h
        · exact absurd h (by simp)
        · next r4 h4 =>
          split at h
          · next r5 h5 =>
            have hr1 : r1.length < cs.length := by
              have := litPrefix_append h1
              subst this
              have h9 : ("\x7bFOOTNOTE".data).length = 9 := rfl
              simp only [List.length_append, h9]
              omega
            have hr2 : r2.length ≤ r1.length :=
              le_trans (litPrefix_length_le h2) (dropWhile_length_le _ r1)
            have hr3 : r3.length ≤ r2.length :=
              le_trans (litPrefix_length_le h3) (dropWhile_length_le _ r2)
            have hr4 : r4.length ≤ r3.length :=
              le_trans (litPrefix_length_le h4) (dropWhile_length_le _ r3)
            have hr5 : r5.length < r4.length := by
              have hd : ('}' :: r5).length ≤ r4.length := by
                rw [← h5]; exact dropWhile_length_le _ r4
              simpa using hd
            cases h
            omega
          · exact absurd h (by simp)

/-- The scanning loop of `re.sub` for the sentinel-annotation pattern,
with an explicit fuel argument (the fuel is only a termination device:
`substAll` always supplies enough). -/
def substAllGo (m : Nat) (repl : List Char) : Nat → List Char → List Char
  | 0, cs => cs
  | _ + 1, [] => []
  | fuel + 1, c :: t =>
    match matchFNM m (c :: t) with
    | some rest => repl ++ substAllGo m repl fuel rest
    | none => c :: substAllGo m repl fuel t

/-- The substitution `re.sub(pattern, repl, text, count=0)` for the sentinel-annotation
pattern of marker `m`: replace every (leftmost, non-overlapping) match. -/
def substAll (m : Nat) (repl : List Char) (cs : List Char) : List Char :=
  substAllGo m repl cs.length cs

theorem substAllGo_nil (m : Nat) (repl : List Char) (f : Nat) :
    substAllGo m repl f [] = [] := by
  cases f <;> rfl

theorem substAllGo_congr (m : Nat) (repl : List Char) :
    ∀ f₁ f₂ cs, cs.length ≤ f₁ → cs.length ≤ f₂ →
      substAllGo m repl f₁ cs = substAllGo m repl f₂ cs := by
  intro f₁
  induction f₁ using Nat.strong_induction_on with
  | _ f₁ ih =>
    intro f₂ cs h₁ h₂
    cases cs with
    | nil => rw [substAllGo_nil, substAllGo_nil]
    | cons c t =>
      cases f₁ with
      | zero => simp at h₁
      | succ g₁ =>
        cases f₂ with
        | zero => simp at h₂
        | succ g₂ =>
          cases hm : matchFNM m (c :: t) with
          | some rest =>
            have hlt := matchFNM_length hm
            simp only [List.length_cons] at h₁ h₂ hlt
            simp only [substAllGo, hm]
            rw [ih g₁ (Nat.lt_succ_self _) g₂ rest (by omega) (by omega)]
          | none =>
            simp only [List.length_cons] at h₁ h₂
            simp only [substAllGo, hm]
            rw [ih g₁ (Nat.lt_succ_self _) g₂ t (by omega) (by omega)]

theorem substAll_nil (m : Nat) (repl : List Char) : substAll m repl [] = [] := rfl

theorem substAll_match {m : Nat} {c : Char} {t rest : List Char} (repl : List Char)
    (h : matchFNM m (c :: t) = some rest) :
    substAll m repl (c :: t) = repl ++ substAll m repl rest := by
  have hlt := matchFNM_length h
  simp only [List.length_cons] at hlt
  simp only [substAll, List.length_cons, substAllGo, h]
  rw [substAllGo_congr m repl t.length rest.length rest (by omega) le_rfl]

theorem substAll_nomatch {m : Nat} {c : Char} {t : List Char} (repl : List Char)
    (h : matchFNM m (c :: t) = none) :
    substAll m repl (c :: t) = c :: substAll m repl t := by
  simp only [substAll, List.length_cons, substAllGo, h]

/-- The replacement text `f"\x7b\x7bFOOTNOTE [\x7bmarker\x7d]: \x7bdefn_text\x7d\x7d\x7d"`. -/
def mkRepl (m : Nat) (d : String) : List Char :=
  ("\x7bFOOTNOTE [" ++ toString m ++ "]: " ++ d ++ "\x7d").data

/-! ## The backfill pass (step 5 of `slm_footnote_stitcher`) -/

/-- One iteration of the backfill loop over `(marker, defn_text)` pairs of
the pre-extracted ground-truth definitions; the state is the registry
together with the healed text. -/
def backfillStep (st : (Nat → Option Footnote) × List Char) (md : Nat × String) :
    (Nat → Option Footnote) × List Char :=
  match st.1 md.1 with
  | none => (regSet st.1 ⟨md.1, md.2, "backfilled"⟩, st.2)
  | some entry =>
    if isMissing entry.text then
      (regSet st.1 ⟨md.1, md.2, "backfilled"⟩, substAll md.1 (mkRepl md.1 md.2) st.2)
    else if 10 * entry.text.length < 6 * md.2.length then
      (regSet st.1 ⟨md.1, md.2, "backfilled"⟩, st.2)
    else st

/-- The whole backfill pass: fold the ground-truth definitions (in the
iteration order of the scanner's dict) over registry and healed text.
Python's `len(entry["text"]) < len(defn_text) * 0.6` is the exact rational
comparison `10 * len(entry) < 6 * len(defn)` (the double rounding of
`L * 0.6` never crosses an integer). -/
def backfillAll (reg : Nat → Option Footnote) (txt : List Char)
    (defs : List (Nat × String)) : (Nat → Option Footnote) × List Char :=
  defs.foldl backfillStep (reg, txt)

/-! ## Page-aware batching (`_page_aware_sections`)

```
parts = re.split(r"(Page \d+/\d+)", raw_text)
pages: buf accumulates parts; each "Page N/M" separator closes a page
       (page body + trailer); a final whitespace-only buf is dropped.
sections: greedy merge of consecutive pages up to max_size; a final
          whitespace-only current is dropped.
```

The splitting is modelled directly: a page is the text up to and
including the next `Page N/M` marker. -/

/-- Match `Page \d+/\d+` at the head of the input, returning the matched
text and the rest. -/
def matchPage (cs : List Char) : Option (List Char × List Char) :=
  match litPrefix "Page ".data cs with
  | none => none
  | some r1 =>
    let ds1 := r1.takeWhile Char.isDigit
    if ds1.isEmpty then none
    else
      match r1.dropWhile Char.isDigit with
      | '/' :: r2 =>
        let ds2 := r2.takeWhile Char.isDigit
        if ds2.isEmpty then none
        else some ("Page ".data ++ ds1 ++ '/' :: ds2, r2.dropWhile Char.isDigit)
      | _ => none

/-- Split off the first page (everything up to and including the first
`Page N/M` marker), if any marker occurs. -/
def splitFirstPage : List Char → Option (List Char × List Char)
  | [] => none
  | c :: t =>
    match matchPage (c :: t) with
    | some pr => some pr
    | none =>
      match splitFirstPage t with
      | some (p, r) => some (c :: p, r)
      | none => none

theorem matchPage_append {cs p r : List Char} (h : matchPage cs = some (p, r)) :
    cs = p ++ r ∧ 'P' ∈ p := by
  unfold matchPage at h
  split at h
  · exact absurd h (by simp)
  · next r1 h1 =>
    simp only at h
    split at h
    · exact absurd h (by simp)
    · split at h
      · next r2 h2 =>
        split at h
        · exact absurd h (by simp)
        · have hcs := litPrefix_append h1
          have e1 : r1 = r1.takeWhile Char.isDigit ++ '/' :: r2 := by
            conv_lhs => rw [← List.takeWhile_append_dropWhile (p := Char.isDigit) (l := r1)]
            rw [h2]
          have e2 : r2 = r2.takeWhile Char.isDigit ++ r2.dropWhile Char.isDigit :=
            (List.takeWhile_append_dropWhile (p := Char.isDigit) (l := r2)).symm
          cases h
          subst hcs
          constructor
          · conv_lhs => rw [e1]
            conv_lhs => rw [e2]
            simp
          · have : 'P' ∈ "Page ".data := by decide
            simp [this]
      · exact absurd h (by simp)

theorem splitFirstPage_append {cs p r : List Char}
    (h : splitFirstPage cs = some (p, r)) : cs = p ++ r ∧ 'P' ∈ p := by
  induction cs generalizing p r with
  | nil => simp [splitFirstPage] at h
  | cons c t ih =>
    unfold splitFirstPage at h
    split at h
    · next pr hm =>
      cases h
      exact matchPage_append hm
    · split at h
      · next p' r' hs =>
        cases h
        obtain ⟨ht, hP⟩ := ih hs
        exact ⟨by rw [ht]; simp, by simp [hP]⟩
      · exact absurd h (by simp)

theorem splitFirstPage_length {cs p r : List Char}
    (h : splitFirstPage cs = some (p, r)) : r.length < cs.length := by
  obtain ⟨ht, hP⟩ := splitFirstPage_append h
  have : p ≠ [] := by rintro rfl; simp at hP
  have : 0 < p.length := List.length_pos.mpr this
  rw [ht]
  simp only [List.length_append]
  omega

/-- The page-cutting loop, with an explicit fuel argument (the fuel is
only a termination device: `scanPages` always supplies enough). -/
def scanPagesGo : Nat → List Char → List (List Char)
  | 0, cs => if cs.any (fun c => !isPySpace c) then [cs] else []
  | fuel + 1, cs =>
    match splitFirstPage cs with
    | some (p, r) => p :: scanPagesGo fuel r
    | none => if cs.any (fun c => !isPySpace c) then [cs] else []

/-- The page list: text is cut after every `Page N/M` marker; a trailing
whitespace-only remainder is dropped (`if buf.strip(): pages.append(buf)`). -/
def scanPages (cs : List Char) : List (List Char) :=
  scanPagesGo cs.length cs

theorem scanPagesGo_congr :
    ∀ f₁ f₂ cs, cs.length ≤ f₁ → cs.length ≤ f₂ →
      scanPagesGo f₁ cs = scanPagesGo f₂ cs := by
  intro f₁
  induction f₁ using Nat.strong_induction_on with
  | _ f₁ ih =>
    intro f₂ cs h₁ h₂
    cases hs : splitFirstPage cs with
    | none =>
      cases f₁ <;> cases f₂ <;> simp only [scanPagesGo, hs]
    | some pr =>
      obtain ⟨p, r⟩ := pr
      have hlt := splitFirstPage_length hs
      cases f₁ with
      | zero => omega
      | succ g₁ =>
        cases f₂ with
        | zero => omega
        | succ g₂ =>
          simp only [scanPagesGo, hs]
          rw [ih g₁ (Nat.lt_succ_self _) g₂ r (by omega) (by omega)]

theorem scanPages_some {cs p r : List Char} (h : splitFirstPage cs = some (p, r)) :
    scanPages cs = p :: scanPages r := by
  have hlt := splitFirstPage_length h
  cases hc : cs with
  | nil =>
    subst hc
    exact Option.noConfusion ((rfl : splitFirstPage [] = none).symm.trans h)
  | cons c t =>
    subst hc
    simp only [scanPages, List.length_cons, scanPagesGo, h]
    have : r.length ≤ t.length := by
      simp only [List.length_cons] at hlt
      omega
    rw [scanPagesGo_congr t.length r.length r this le_rfl]

theorem scanPages_none {cs : List Char} (h : splitFirstPage cs = none) :
    scanPages cs = if cs.any (fun c => !isPySpace c) then [cs] else [] := by
  cases hc : cs.length with
  | zero => simp [scanPages, hc, scanPagesGo]
  | succ n => simp [scanPages, hc, scanPagesGo, h]

/-- One step of the greedy page-merge loop:

```
if current and len(current) + len(page) > max_size:
    sections.append(current); current = page
else:
    current += page
``` -/
def mergeStep (maxSize : Nat) (st : List (List Char) × List Char) (page : List Char) :
    List (List Char) × List Char :=
  if st.2 ≠ [] ∧ st.2.length + page.length > maxSize then (st.1 ++ [st.2], page)
  else (st.1, st.2 ++ page)

/-- The batcher `_page_aware_sections(raw_text, max_size)`. -/
def pageAwareSections (maxSize : Nat) (cs : List Char) : List (List Char) :=
  let st := (scanPages cs).foldl (mergeStep maxSize) ([], [])
  if st.2.any (fun c => !isPySpace c) then st.1 ++ [st.2] else st.1

/-! ## Boundary protection (`enriched_chunker`)

```
protected = re.sub(r"\\x7bFOOTNOTE.*?\\x7d",
                   lambda m: m.group(0).replace("\n", " "), text, flags=re.DOTALL)
```

The lazy `.*?` with DOTALL extends to the first `}` after `{FOOTNOTE`. -/

/-- Match `\{FOOTNOTE.*?\}` at the head of the input, returning the
matched span and the rest. -/
def matchFootSpan (cs : List Char) : Option (List Char × List Char) :=
  match litPrefix "\x7bFOOTNOTE".data cs with
  | none => none
  | some r =>
    match r.dropWhile (fun c => c ≠ '}') with
    | '}' :: rest =>
      some ("\x7bFOOTNOTE".data ++ r.takeWhile (fun c => c ≠ '}') ++ ['}'], rest)
    | _ => none

theorem matchFootSpan_append {cs sp rest : List Char}
    (h : matchFootSpan cs = some (sp, rest)) : cs = sp ++ rest := by
  unfold matchFootSpan at h
  split at h
  · exact absurd h (by simp)
  · next r hr =>
    split at h
    · next rest' hd =>
      cases h
      have := litPrefix_append hr
      subst this
      have e : r = r.takeWhile (fun c => c ≠ '}') ++ '}' :: rest := by
        conv_lhs =>
          rw [← List.takeWhile_append_dropWhile (p := fun c => c ≠ '}') (l := r)]
        rw [hd]
      conv_lhs => rw [e]
      simp
    · exact absurd h (by simp)

theorem matchFootSpan_length {cs sp rest : List Char}
    (h : matchFootSpan cs = some (sp, rest)) : rest.length < cs.length := by
  have hap := matchFootSpan_append h
  have hsp : ("\x7bFOOTNOTE".data).length ≤ sp.length := by
    unfold matchFootSpan at h
    split at h
    · exact absurd h (by simp)
    · split at h
      · cases h; simp
      · exact absurd h (by simp)
  rw [hap]
  simp only [List.length_append]
  have : 0 < ("\x7bFOOTNOTE".data).length := by decide
  omega

/-- Newline to space, as applied to the inside of a matched span. -/
def protectChar (c : Char) : Char := if c = '\n' then ' ' else c

/-- The scanning loop of the protection `re.sub`, with an explicit fuel
argument (the fuel is only a termination device: `protect` always
supplies enough). -/
def protectGo : Nat → List Char → List Char
  | 0, cs => cs
  | _ + 1, [] => []
  | fuel + 1, c :: t =>
    match matchFootSpan (c :: t) with
    | some (sp, rest) => sp.map protectChar ++ protectGo fuel rest
    | none => c :: protectGo fuel t

/-- The protection pre-processing of `enriched_chunker`: every newline
inside a `{FOOTNOTE ...}` span becomes a plain space, all other text is
copied unchanged. -/
def protect (cs : List Char) : List Char :=
  protectGo cs.length cs

theorem protectGo_nil (f : Nat) : protectGo f [] = [] := by
  cases f <;> rfl

theorem protectGo_congr :
    ∀ f₁ f₂ cs, cs.length ≤ f₁ → cs.length ≤ f₂ →
      protectGo f₁ cs = protectGo f₂ cs := by
  intro f₁
  induction f₁ using Nat.strong_induction_on with
  | _ f₁ ih =>
    intro f₂ cs h₁ h₂
    cases cs with
    | nil => rw [protectGo_nil, protectGo_nil]
    | cons c t =>
      cases f₁ with
      | zero => simp at h₁
      | succ g₁ =>
        cases f₂ with
        | zero => simp at h₂
        | succ g₂ =>
          cases hm : matchFootSpan (c :: t) with
          | some pr =>
            obtain ⟨sp, rest⟩ := pr
            have hlt := matchFootSpan_length hm
            simp only [List.length_cons] at h₁ h₂ hlt
            simp only [protectGo, hm]
            rw [ih g₁ (Nat.lt_succ_self _) g₂ rest (by omega) (by omega)]
          | none =>
            simp only [List.length_cons] at h₁ h₂
            simp only [protectGo, hm]
            rw [ih g₁ (Nat.lt_succ_self _) g₂ t (by omega) (by omega)]

theorem protect_match {c : Char} {t sp rest : List Char}
    (h : matchFootSpan (c :: t) = some (sp, rest)) :
    protect (c :: t) = sp.map protectChar ++ protect rest := by
  have hlt := matchFootSpan_length h
  simp only [List.length_cons] at hlt
  simp only [protect, List.length_cons, protectGo, h]
  rw [protectGo_congr t.length rest.length rest (by omega) le_rfl]

theorem protect_nomatch {c : Char} {t : List Char}
    (h : matchFootSpan (c :: t) = none) :
    protect (c :: t) = c :: protect t := by
  simp only [protect, List.length_cons, protectGo, h]

/-! ## A hierarchical separator-based splitter

Modelled from the spec: the repository delegates chunking to
`RecursiveCharacterTextSplitter`, an external library whose source is not
part of this repository; the spec describes it as "a generic hierarchical
separator-based splitter (paragraph → line → sentence → word → character,
in that preference order)" producing "overlapping chunks of a configured
target size and overlap", invoked with separators
`["\n\n", "\n", ". ", " ", ""]`.  The model picks the first separator
occurring in the text, splits on it, recursively re-splits pieces not
under the target size with the remaining separators, and greedily merges
small pieces into chunks up to the target size, carrying an overlap-sized
tail of pieces from one chunk into the next.  (Chunk-level whitespace
stripping is omitted.) -/

/-- The separator-splitting loop, with an explicit fuel argument (the
fuel is only a termination device: `splitOnSep` always supplies enough
for a nonempty separator). -/
def splitOnSepGo (ls : List Char) : Nat → List Char → List (List Char)
  | _, [] => [[]]
  | 0, cs => [cs]
  | fuel + 1, c :: t =>
    match litPrefix ls (c :: t) with
    | some rest => [] :: splitOnSepGo ls fuel rest
    | none =>
      match splitOnSepGo ls fuel t with
      | p :: ps => (c :: p) :: ps
      | [] => [[c]]

/-- Split on a separator; the separator is removed from the pieces. -/
def splitOnSep (ls cs : List Char) : List (List Char) :=
  if ls.isEmpty then [cs] else splitOnSepGo ls cs.length cs

/-- Join pieces with the separator re-inserted between them. -/
def joinSep (sep : List Char) : List (List Char) → List Char
  | [] => []
  | [p] => p
  | p :: ps => p ++ sep ++ joinSep sep ps

/-- Drop leading pieces of the running window until it fits in the
overlap budget (and the next piece would fit in a chunk). -/
def shrinkOverlap (chunkSize overlap : Nat) (sep : List Char) (plen : Nat) :
    List (List Char) → List (List Char)
  | [] => []
  | q :: t =>
    if (joinSep sep (q :: t)).length > overlap ∨
        ((joinSep sep (q :: t)).length + sep.length + plen > chunkSize ∧
          (joinSep sep (q :: t)).length > 0) then
      shrinkOverlap chunkSize overlap sep plen t
    else q :: t

/-- Greedily merge small pieces into chunks of at most `chunkSize`
characters, keeping an overlap-sized tail of pieces between chunks. -/
def mergePieces (chunkSize overlap : Nat) (sep : List Char) :
    List (List Char) → List (List Char) → List (List Char)
  | current, [] =>
    match joinSep sep current with
    | [] => []
    | j => [j]
  | current, p :: rest =>
    if current ≠ [] ∧ (joinSep sep (current ++ [p])).length > chunkSize then
      joinSep sep current ::
        mergePieces chunkSize overlap sep
          (shrinkOverlap chunkSize overlap sep p.length current ++ [p]) rest
    else mergePieces chunkSize overlap sep (current ++ [p]) rest

/-- Process the pieces produced by one separator: runs of pieces under the
target size are merged, an oversized piece is re-split with the remaining
separators. -/
def assemblePieces (chunkSize overlap : Nat) (sep : List Char)
    (recurse : List Char → List (List Char)) :
    List (List Char) → List (List Char) → List (List Char)
  | good, [] =>
    if good.isEmpty then [] else mergePieces chunkSize overlap sep [] good
  | good, p :: ps =>
    if p.length < chunkSize then
      assemblePieces chunkSize overlap sep recurse (good ++ [p]) ps
    else
      (if good.isEmpty then [] else mergePieces chunkSize overlap sep [] good) ++
        recurse p ++ assemblePieces chunkSize overlap sep recurse [] ps

/-- The hierarchical splitter over a separator list; an empty separator
list stands for the final `""` (character-level) separator. -/
def recSplit (chunkSize overlap : Nat) : List (List Char) → List Char → List (List Char)
  | [], cs => mergePieces chunkSize overlap [] [] (cs.map (fun c => [c]))
  | sep :: seps, cs =>
    if containsSub sep cs then
      assemblePieces chunkSize overlap sep (recSplit chunkSize overlap seps) []
        (splitOnSep sep cs)
    else recSplit chunkSize overlap seps cs

/-- The separator list passed to the splitter in `enriched_chunker` (the
final `""` is the base case of `recSplit`). -/
def LC_SEPARATORS : List (List Char) := ["\n\n".data, "\n".data, ". ".data, " ".data]

/-- Configuration constant `CHUNK_SIZE = 800` (characters per chunk). -/
def CHUNK_SIZE : Nat := 800

/-- Configuration constant `CHUNK_OVERLAP = 100` (overlap between chunks). -/
def CHUNK_OVERLAP : Nat := 100

/-- The chunker `enriched_chunker`: protect footnote spans, then split. -/
def enrichedChunker (cs : List Char) : List (List Char) :=
  recSplit CHUNK_SIZE CHUNK_OVERLAP LC_SEPARATORS (protect cs)

/-! ## Multi-query retrieval deduplication (`_multi_query_retrieve`)

```
seen: set[str] = set(); results = []
for query in RETRIEVAL_QUERIES:
    for doc in vectorstore.similarity_search(query, k_per_query):
        key = doc.page_content[:200]
        if key not in seen:
            seen.add(key); results.append(doc)
```

The vector store is an external collaborator, modelled as a function from
query to result list; documents are modelled by their `page_content`. -/

/-- One iteration of the dedup loop; the state is `(seen, results)`. -/
def dedupStep (st : List (List Char) × List (List Char)) (doc : List Char) :
    List (List Char) × List (List Char) :=
  let key := doc.take 200
  if key ∈ st.1 then st else (key :: st.1, st.2 ++ [doc])

/-- The deduplicator `_multi_query_retrieve` over an abstract retrieval service. -/
def multiQueryRetrieve (retrieve : String → List (List Char))
    (queries : List String) : List (List Char) :=
  (((queries.map retrieve).flatten).foldl dedupStep ([], [])).2

/-- The specification-side formulation of the deduplication ("append each
result to an output list only if no prior result shares the same
first-200-character prefix … preserving first-seen order"), written as a
direct recursion for comparison with the fold above. -/
def specFirstOccur (seen : List (List Char)) : List (List Char) → List (List Char)
  | [] => []
  | d :: t =>
    if d.take 200 ∈ seen then specFirstOccur seen t
    else d :: specFirstOccur (d.take 200 :: seen) t

/-! ## Cosine similarity and the semantic diff (`audit_report_generator.py`)

Floating-point numbers are modelled as elements of a linear ordered field
`α`, with the square root passed in as a function (instantiated with
`Real.sqrt` for the numerical claims and with any stand-in for the
structural ones, which hold for every `sqrt`). -/

section Audit

variable {α : Type} [LinearOrderedField α]

/-- Python `sum(x * x for x in a)`. -/
def sumSq (a : List α) : α := a.foldl (fun s x => s + x * x) 0

/-- Python `sum(x * y for x, y in zip(a, b))`. -/
def dotProd (a b : List α) : α := (a.zip b).foldl (fun s p => s + p.1 * p.2) 0

/-- The function `_cosine_similarity(a, b)`:

```
dot = sum(x * y for x, y in zip(a, b))
mag_a = math.sqrt(sum(x * x for x in a)); mag_b = ...
if mag_a == 0 or mag_b == 0: return 0.0
return dot / (mag_a * mag_b)
``` -/
def cosineSimilarity (sqrt : α → α) (a b : List α) : α :=
  let mag_a := sqrt (sumSq a)
  let mag_b := sqrt (sumSq b)
  if mag_a = 0 ∨ mag_b = 0 then 0 else dotProd a b / (mag_a * mag_b)

/-- The helper `_max_sim(vec, targets)`: `0.0` for an empty target list, otherwise
`max(_cosine_similarity(vec, t) for t in targets)` (a left fold of
`max` over the generated values). -/
def maxSim (sqrt : α → α) (vec : List α) : List (List α) → α
  | [] => 0
  | t :: ts => (ts.map (cosineSimilarity sqrt vec)).foldl max (cosineSimilarity sqrt vec t)

/-- The classifier `_compute_semantic_diff(sentences_a, sentences_b, embeddings_model,
threshold)`: embed `sentences_a + sentences_b` in one call, split the
vectors back, and mark each sentence novel when its maximum similarity
against the other side is strictly below the threshold. -/
def computeSemanticDiff (sqrt : α → α) (embed : List String → List (List α))
    (sa sb : List String) (threshold : α) : List Bool × List Bool :=
  let allTexts := sa ++ sb
  if allTexts.isEmpty then ([], [])
  else
    let vecs := embed allTexts
    let va := vecs.take sa.length
    let vb := vecs.drop sa.length
    (va.map (fun v => decide (maxSim sqrt v vb < threshold)),
     vb.map (fun v => decide (maxSim sqrt v va < threshold)))

end Audit

/-! ## Sentence segmentation (`_split_sentences`)

```
_SENTENCE_RE = re.compile(r"(?<=[.!?;])\s+(?=[A-Z\"“(])" r"|(?<=\n)\s*")
parts = _SENTENCE_RE.split(text.strip())
merged = []
for p in parts:
    p = p.strip()
    if not p: continue
    if merged and len(p) < 30: merged[-1] = merged[-1] + " " + p
    else: merged.append(p)
```

The split pattern is deterministic: the first alternative needs a
sentence-final punctuation character before the position, a maximal
nonempty whitespace run, and an upper-case/quote/parenthesis character
after it; the second needs a newline before the position and takes a
maximal (possibly empty) whitespace run.  Following `re.split`, an empty
match cuts the string and the scanner then advances one character. -/

/-- The class `[.!?;]` — the lookbehind of the first alternative. -/
def isSentPunct (c : Char) : Bool := c = '.' || c = '!' || c = '?' || c = ';'

/-- The class `[A-Z"“(]` — the lookahead of the first alternative. -/
def isSentStart (c : Char) : Bool :=
  ('A' ≤ c && c ≤ 'Z') || c = '"' || c = '“' || c = '('

/-- Try to match the split pattern at the current position, given the
previous character (`none` at the start of the string, where neither
lookbehind can hold).  Returns the input remaining after the consumed
whitespace; an empty match is possible only for the second alternative. -/
def matchSentSep (prev : Option Char) (cs : List Char) : Option (List Char) :=
  match prev with
  | none => none
  | some p =>
    let ws := cs.takeWhile isPySpace
    let rest := cs.dropWhile isPySpace
    if isSentPunct p && !ws.isEmpty &&
        (match rest with | c :: _ => isSentStart c | [] => false) then
      some rest
    else if p = '\n' then some rest
    else none

/-- The `re.split` scanning loop: `buf` is the current piece (reversed),
`prev` the character before the current position.  On a nonempty match
the piece is closed and scanning resumes after the match; on an empty
match the piece is closed and the scanner advances one character. -/
def sentSplitGo : Nat → Option Char → List Char → List Char → List (List Char)
  | 0, _, buf, cs => [buf.reverse ++ cs]
  | _ + 1, prev, buf, [] =>
    match matchSentSep prev [] with
    | some _ => [buf.reverse, []]
    | none => [buf.reverse]
  | fuel + 1, prev, buf, c :: t =>
    match matchSentSep prev (c :: t) with
    | some rest =>
      if rest.length = (c :: t).length then
        buf.reverse :: sentSplitGo fuel (some c) [c] t
      else
        buf.reverse :: sentSplitGo fuel (((c :: t).takeWhile isPySpace).getLast? ) [] rest
    | none => sentSplitGo fuel (some c) (c :: buf) t

/-- The split `_SENTENCE_RE.split(text)`. -/
def sentSplit (cs : List Char) : List (List Char) :=
  sentSplitGo cs.length none [] cs

/-- The merge loop of `_split_sentences` (the accumulator holds the
output in reverse order; its head is Python's `merged[-1]`). -/
def mergeShort : List (List Char) → List (List Char) → List (List Char)
  | acc, [] => acc.reverse
  | acc, p :: ps =>
    let q := pyStrip p
    if q.isEmpty then mergeShort acc ps
    else
      match acc with
      | [] => mergeShort [q] ps
      | last :: rest =>
        if q.length < 30 then mergeShort ((last ++ ' ' :: q) :: rest) ps
        else mergeShort (q :: last :: rest) ps

/-- The segmenter `_split_sentences(text)`. -/
def splitSentences (cs : List Char) : List (List Char) :=
  mergeShort [] (sentSplit (pyStrip cs))

/-! ## The registry fold, per marker (claims C2, C4) -/

/-- The action of `stepOcc` on the single registry slot of the
occurrence's own marker. -/
def stepOccSlot (cur : Option Footnote) (fn : Footnote) : Option Footnote :=
  match cur with
  | none => some fn
  | some existing =>
    if isMissing existing.text && !isMissing fn.text then some fn
    else if !isMissing fn.text && fn.text.length > existing.text.length then some fn
    else some existing

/-- The specification's precedence rule for one later occurrence against
the current winner: replace iff the winner is a sentinel and the new text
is not, or neither is a sentinel and the new text is strictly longer. -/
def specMerge (w fn : Footnote) : Footnote :=
  if isMissing w.text && !isMissing fn.text then fn
  else if !isMissing w.text && !isMissing fn.text &&
      fn.text.length > w.text.length then fn
  else w

/-- The specification's per-marker fold: the first occurrence is accepted
as-is with status `linked`, every later occurrence is merged by
`specMerge`. -/
def specPerMarkerFold (occs : List Footnote) : Option Footnote :=
  occs.foldl
    (fun cur fn =>
      match cur with
      | none => some ⟨fn.marker, fn.text, "linked"⟩
      | some w => some (specMerge w fn)) none

theorem stepOcc_self (reg : Nat → Option Footnote) (fn : Footnote) :
    stepOcc reg fn fn.marker = stepOccSlot (reg fn.marker) fn := by
  unfold stepOcc stepOccSlot
  cases hreg : reg fn.marker with
  | none => simp [regSet]
  | some existing =>
    by_cases h1 : isMissing existing.text && !isMissing fn.text
    · simp [h1, regSet]
    · by_cases h2 : !isMissing fn.text && fn.text.length > existing.text.length
      · simp [h1, h2, regSet]
      · simp [h1, h2, hreg]

theorem stepOcc_other (reg : Nat → Option Footnote) (fn : Footnote) (m : Nat)
    (h : fn.marker ≠ m) : stepOcc reg fn m = reg m := by
  unfold stepOcc
  have hset : regSet reg fn m = reg m := by
    unfold regSet
    simp [Ne.symm h]
  cases reg fn.marker with
  | none => exact hset
  | some existing =>
    by_cases h1 : isMissing existing.text && !isMissing fn.text
    · simp [h1, hset]
    · by_cases h2 : !isMissing fn.text && fn.text.length > existing.text.length
      · simp [h1, h2, hset]
      · simp [h1, h2]

theorem foldl_stepOcc_slot (occs : List Footnote) :
    ∀ (reg : Nat → Option Footnote) (m : Nat),
      (occs.foldl stepOcc reg) m =
        (occs.filter (fun fn => fn.marker == m)).foldl stepOccSlot (reg m) := by
  induction occs with
  | nil => intro reg m; rfl
  | cons fn t ih =>
    intro reg m
    by_cases h : fn.marker = m
    · have hb : (fn.marker == m) = true := by simp [h]
      have hfil : (fn :: t).filter (fun g => g.marker == m) =
          fn :: t.filter (fun g => g.marker == m) := by
        simp [List.filter_cons, hb]
      rw [List.foldl_cons, ih, hfil, List.foldl_cons]
      rw [← h, stepOcc_self]
    · have hb : (fn.marker == m) = false := by simp [h]
      have hfil : (fn :: t).filter (fun g => g.marker == m) =
          t.filter (fun g => g.marker == m) := by
        simp [List.filter_cons, hb]
      rw [List.foldl_cons, ih, hfil, stepOcc_other reg fn m h]

theorem stepOccSlot_eq_specMerge (w fn : Footnote) :
    stepOccSlot (some w) fn = some (specMerge w fn) := by
  unfold stepOccSlot specMerge
  cases hw : isMissing w.text <;> cases hf : isMissing fn.text <;>
    by_cases hl : fn.text.length > w.text.length <;> simp [hw, hf, hl]

theorem foldl_slot_eq_spec (l : List Footnote) :
    ∀ w : Footnote, l.foldl stepOccSlot (some w) =
      l.foldl
        (fun cur fn =>
          match cur with
          | none => some ⟨fn.marker, fn.text, "linked"⟩
          | some w => some (specMerge w fn)) (some w) := by
  induction l with
  | nil => intro w; rfl
  | cons fn t ih =>
    intro w
    rw [List.foldl_cons, List.foldl_cons, stepOccSlot_eq_specMerge]
    exact ih (specMerge w fn)

/-- Claim C2:  The registry fold behaves, per marker, exactly as the
specification's precedence rules describe: looking up any marker `m` in
the registry built from the occurrence list equals the result of folding
the occurrences carrying marker `m`, in source order, where the first is
accepted as-is with status `linked` and each later one replaces the
current winner iff the winner's text is a sentinel and the new one's is
not, or neither is a sentinel and the new text is strictly longer. -/
theorem registry_fold_spec (occs : List Footnote) (m : Nat)
    (hlink : ∀ fn ∈ occs, fn.status = "linked") :
    buildRegistry occs m = specPerMarkerFold (occs.filter (fun fn => fn.marker == m)) := by
  unfold buildRegistry specPerMarkerFold
  rw [foldl_stepOcc_slot]
  have hsub : ∀ fn ∈ occs.filter (fun fn => fn.marker == m), fn.status = "linked" := by
    intro fn hfn
    exact hlink fn (List.mem_of_mem_filter hfn)
  generalize occs.filter (fun fn => fn.marker == m) = l at hsub
  cases l with
  | nil => rfl
  | cons fn t =>
    rw [List.foldl_cons, List.foldl_cons]
    have hfn : (⟨fn.marker, fn.text, "linked"⟩ : Footnote) = fn := by
      have := hsub fn (by simp)
      cases fn
      simp_all
    rw [show stepOccSlot none fn = some fn from rfl, hfn]
    exact foldl_slot_eq_spec t fn

/-- Witness for C2 at a concrete occurrence list. -/
theorem registry_fold_spec_witness :
    buildRegistry [⟨1, "a", "linked"⟩, ⟨2, "bb", "linked"⟩, ⟨1, "ccc", "linked"⟩] 1 =
      specPerMarkerFold
        ([⟨1, "a", "linked"⟩, ⟨2, "bb", "linked"⟩,
          (⟨1, "ccc", "linked"⟩ : Footnote)].filter (fun fn => fn.marker == 1)) :=
  registry_fold_spec _ 1 (by decide)

/-- Claim C4, counterexample:  The per-marker fold is *not* commutative:
two occurrences of marker 1 whose texts are both non-sentinel and of
equal length ("ab" and "cd") produce different winning entries depending
on processing order — the first occurrence always wins the tie. -/
theorem registry_fold_not_commutative :
    buildRegistry [⟨1, "ab", "linked"⟩, ⟨1, "cd", "linked"⟩] 1 ≠
      buildRegistry [⟨1, "cd", "linked"⟩, ⟨1, "ab", "linked"⟩] 1 := by decide

/-- Claim C4, amended:  The per-marker fold is commutative for two
occurrences of the same marker whenever their texts differ in sentinel
status, or neither text is a sentinel and their lengths differ; in the
remaining tie cases (both sentinels, or both non-sentinels of equal
length) the first occurrence processed wins. -/
theorem registry_fold_comm_of_distinguishable (a b : Footnote)
    (hm : a.marker = b.marker)
    (h : isMissing a.text ≠ isMissing b.text ∨
      (isMissing a.text = false ∧ isMissing b.text = false ∧
        a.text.length ≠ b.text.length)) :
    buildRegistry [a, b] a.marker = buildRegistry [b, a] a.marker := by
  have key : ∀ x y : Footnote, x.marker = y.marker →
      buildRegistry [x, y] x.marker = some (specMerge x y) := by
    intro x y hxy
    unfold buildRegistry
    rw [List.foldl_cons, List.foldl_cons, List.foldl_nil]
    rw [hxy, stepOcc_self (stepOcc (fun _ => none) x) y, ← hxy, stepOcc_self]
    exact stepOccSlot_eq_specMerge x y
  have hcomm : specMerge a b = specMerge b a := by
    unfold specMerge
    rcases h with h | ⟨ha, hb, hl⟩
    · cases hma : isMissing a.text <;> cases hmb : isMissing b.text <;>
        simp [hma, hmb] at h ⊢
    · by_cases hab : b.text.length > a.text.length
      · have hba : ¬ a.text.length > b.text.length := by omega
        simp [ha, hb, hab, hba]
      · have hba : a.text.length > b.text.length := by omega
        simp [ha, hb, hab, hba]
  rw [key a b hm, hm, key b a hm.symm, hcomm]

/-- Witness for the amended C4 at two concrete occurrences (a sentinel
and a real text of the same length for the same marker). -/
theorem registry_fold_comm_witness :
    buildRegistry [⟨1, "MISSING", "linked"⟩, ⟨1, "adamant", "linked"⟩] 1 =
      buildRegistry [⟨1, "adamant", "linked"⟩, ⟨1, "MISSING", "linked"⟩] 1 :=
  registry_fold_comm_of_distinguishable ⟨1, "MISSING", "linked"⟩
    ⟨1, "adamant", "linked"⟩ rfl (by decide)

/-! ## Backfill completeness (claim C1) -/

theorem buildRegistry_mem {occs : List Footnote} {m : Nat} {w : Footnote}
    (h : buildRegistry occs m = some w) : w ∈ occs := by
  suffices key : ∀ (l : List Footnote) (reg : Nat → Option Footnote),
      (l.foldl stepOcc reg) m = some w → w ∈ l ∨ reg m = some w by
    rcases key occs (fun _ => none) h with hin | hbad
    · exact hin
    · exact Option.noConfusion hbad
  intro l
  induction l with
  | nil => intro reg hr; exact Or.inr hr
  | cons fn t ih =>
    intro reg hr
    rw [List.foldl_cons] at hr
    rcases ih (stepOcc reg fn) hr with hin | heq
    · exact Or.inl (List.mem_cons_of_mem _ hin)
    · by_cases hmk : fn.marker = m
      · rw [← hmk, stepOcc_self] at heq
        unfold stepOccSlot at heq
        cases hreg : reg fn.marker with
        | none =>
          rw [hreg] at heq
          cases heq
          exact Or.inl (List.mem_cons_self _ _)
        | some existing =>
          rw [hreg] at heq
          by_cases h1 : isMissing existing.text && !isMissing fn.text
          · simp only [h1, if_true] at heq
            cases heq
            exact Or.inl (List.mem_cons_self _ _)
          · by_cases h2 : !isMissing fn.text && fn.text.length > existing.text.length
            · simp only [h1, h2, if_false, if_true] at heq
              cases heq
              exact Or.inl (List.mem_cons_self _ _)
            · simp only [h1, h2, if_false] at heq
              cases heq
              right
              rw [← hmk]
              exact hreg
      · rw [stepOcc_other reg fn m hmk] at heq
        exact Or.inr heq

theorem backfillStep_other {st : (Nat → Option Footnote) × List Char}
    {md : Nat × String} {m : Nat} (h : md.1 ≠ m) :
    (backfillStep st md).1 m = st.1 m := by
  unfold backfillStep
  have hset : ∀ d s, regSet st.1 ⟨md.1, d, s⟩ m = st.1 m := by
    intro d s
    unfold regSet
    simp [Ne.symm h]
  cases st.1 md.1 with
  | none => exact hset _ _
  | some entry =>
    by_cases h1 : isMissing entry.text
    · simp [h1, hset]
    · by_cases h2 : 10 * entry.text.length < 6 * md.2.length
      · simp [h1, h2, hset]
      · simp [h1, h2]

theorem backfill_foldl_other {l : List (Nat × String)} {m : Nat}
    (h : ∀ p ∈ l, p.1 ≠ m) :
    ∀ st : (Nat → Option Footnote) × List Char,
      (l.foldl backfillStep st).1 m = st.1 m := by
  induction l with
  | nil => intro st; rfl
  | cons p t ih =>
    intro st
    rw [List.foldl_cons]
    rw [ih (fun q hq => h q (List.mem_cons_of_mem _ hq))]
    exact backfillStep_other (h p (List.mem_cons_self _ _))

/-- Claim C1:  Every marker present in the scanner's ground-truth mapping
appears in the final registry after the backfill pass, and its status is
`backfilled` exactly when the winning folded occurrence for that marker
was absent, contained the missing-content sentinel, or was shorter than
60% of the ground-truth definition; every other entry is the untouched
winner, with status `linked`. -/
theorem backfill_registry_complete (occs : List Footnote) (txt : List Char)
    (defs : List (Nat × String)) (m : Nat) (d : String)
    (hnd : (defs.map Prod.fst).Nodup) (hmem : (m, d) ∈ defs)
    (hlink : ∀ fn ∈ occs, fn.status = "linked") :
    ∃ fn, (backfillAll (buildRegistry occs) txt defs).1 m = some fn ∧
      (fn.status = "backfilled" ↔
        buildRegistry occs m = none ∨
          ∃ w, buildRegistry occs m = some w ∧
            (isMissing w.text = true ∨ 10 * w.text.length < 6 * d.length)) ∧
      (fn.status = "linked" ∨ fn.status = "backfilled") := by
  obtain ⟨pre, post, rfl⟩ := List.append_of_mem hmem
  have hpre : ∀ p ∈ pre, p.1 ≠ m := by
    intro p hp
    intro heq
    have : m ∈ pre.map Prod.fst := by
      rw [← heq]; exact List.mem_map_of_mem _ hp
    have hnd' := hnd
    rw [List.map_append, List.map_cons] at hnd'
    rcases List.disjoint_of_nodup_append hnd' this with hcon
    simp at hcon
  have hpost : ∀ p ∈ post, p.1 ≠ m := by
    intro p hp
    intro hpeq
    rw [List.map_append, List.map_cons] at hnd
    have hnd2 := (List.nodup_append.mp hnd).2.1
    have : m ∈ post.map Prod.fst := by
      rw [← hpeq]; exact List.mem_map_of_mem _ hp
    rw [List.nodup_cons] at hnd2
    exact hnd2.1 this
  unfold backfillAll
  rw [List.foldl_append, List.foldl_cons]
  rw [backfill_foldl_other hpost]
  set st₁ := pre.foldl backfillStep (buildRegistry occs, txt) with hst₁
  have hpos : st₁.1 m = buildRegistry occs m := by
    rw [hst₁]
    exact backfill_foldl_other hpre (buildRegistry occs, txt)
  unfold backfillStep
  simp only
  cases hreg : buildRegistry occs m with
  | none =>
    rw [hpos, hreg]
    refine ⟨⟨m, d, "backfilled"⟩, ?_, ?_, Or.inr rfl⟩
    · simp [regSet]
    · simp
  | some w =>
    rw [hpos, hreg]
    have hws : w.status = "linked" := hlink w (buildRegistry_mem hreg)
    by_cases h1 : isMissing w.text
    · refine ⟨⟨m, d, "backfilled"⟩, ?_, ?_, Or.inr rfl⟩
      · simp [h1, regSet]
      · constructor
        · intro _
          exact Or.inr ⟨w, rfl, Or.inl h1⟩
        · intro _
          rfl
    · by_cases h2 : 10 * w.text.length < 6 * d.length
      · refine ⟨⟨m, d, "backfilled"⟩, ?_, ?_, Or.inr rfl⟩
        · simp [h1, h2, regSet]
        · constructor
          · intro _
            exact Or.inr ⟨w, rfl, Or.inr h2⟩
          · intro _
            rfl
      · refine ⟨w, ?_, ?_, Or.inl hws⟩
        · simp [h1, h2, hpos, hreg]
        · constructor
          · intro hbad
            rw [hws] at hbad
            exact absurd hbad (by decide)
          · rintro (hnone | ⟨w', hw', hcond⟩)
            · exact Option.noConfusion hnone
            · cases hw'
              rcases hcond with hc | hc
              · exact absurd hc (by simp [h1])
              · exact absurd hc h2

/-- Witness for C1: one short linked occurrence for marker 1 against a
much longer ground-truth definition (the 60% rule fires). -/
theorem backfill_registry_complete_witness :
    ∃ fn, (backfillAll (buildRegistry [⟨1, "short", "linked"⟩]) "x".data
        [(1, "a definitely longer definition")]).1 1 = some fn ∧
      (fn.status = "backfilled" ↔
        buildRegistry [⟨1, "short", "linked"⟩] 1 = none ∨
          ∃ w, buildRegistry [⟨1, "short", "linked"⟩] 1 = some w ∧
            (isMissing w.text = true ∨
              10 * w.text.length < 6 * "a definitely longer definition".length)) ∧
      (fn.status = "linked" ∨ fn.status = "backfilled") :=
  backfill_registry_complete [⟨1, "short", "linked"⟩] "x".data
    [(1, "a definitely longer definition")] 1 "a definitely longer definition"
    (by decide) (by decide) (by decide)

/-! ## The text-patching half of the backfill pass (claim C3) -/

theorem litPrefix_self (lit : List Char) : ∀ x, litPrefix lit (lit ++ x) = some x := by
  induction lit with
  | nil => intro x; rfl
  | cons l ls ih =>
    intro x
    simp only [List.cons_append, litPrefix, if_pos rfl]
    exact ih x

theorem dropWhile_ne_append {junk : List Char} (b : Char) (rest : List Char)
    (h : b ∉ junk) :
    (junk ++ b :: rest).dropWhile (fun c => c ≠ b) = b :: rest := by
  induction junk with
  | nil => simp [List.dropWhile]
  | cons j js ih =>
    have hj : j ≠ b := by
      intro he
      exact h (he ▸ List.mem_cons_self _ _)
    have ihr := ih (fun hm => h (List.mem_cons_of_mem _ hm))
    simp only [List.cons_append, List.dropWhile_cons]
    rw [if_pos (show (fun c => decide (c ≠ b)) j = true by simp [hj])]
    exact ihr

/-- The canonical sentinel annotation for marker `m`: the uppercase
sentinel token directly after the colon, the trailing junk free of
braces, exactly the shape the backfill `re.sub` pattern matches. -/
def canonSentinel (m : Nat) (junk : List Char) : List Char :=
  "\x7bFOOTNOTE [".data ++ (toString m).data ++ "]: MISSING".data ++ junk ++ ['}']

theorem matchFNM_canon (m : Nat) (junk rest : List Char) (h : '}' ∉ junk) :
    matchFNM m (canonSentinel m junk ++ rest) = some rest := by
  have hA : (("[" ++ toString m ++ "]").data : List Char) =
      '[' :: (toString m).data ++ [']'] := by
    rw [String.data_append, String.data_append]
    rfl
  have hshape : canonSentinel m junk ++ rest =
      "\x7bFOOTNOTE".data ++
        (' ' :: ('[' :: ((toString m).data ++
          (']' :: ':' :: ' ' :: ("MISSING".data ++ (junk ++ '}' :: rest)))))) := by
    unfold canonSentinel
    rw [show ("\x7bFOOTNOTE [".data : List Char) = "\x7bFOOTNOTE".data ++ [' ', '['] from rfl]
    rw [show ("]: MISSING".data : List Char) = [']', ':', ' '] ++ "MISSING".data from rfl]
    simp [List.append_assoc]
  rw [hshape]
  have hd1 : ∀ Z : List Char, (' ' :: '[' :: Z).dropWhile isPySpace = '[' :: Z :=
    fun Z => rfl
  have hlit2 : litPrefix (("[" ++ toString m ++ "]").data)
      ('[' :: ((toString m).data ++
        (']' :: ':' :: ' ' :: ("MISSING".data ++ (junk ++ '}' :: rest))))) =
      some (':' :: ' ' :: ("MISSING".data ++ (junk ++ '}' :: rest))) := by
    have : ('[' :: ((toString m).data ++
        (']' :: ':' :: ' ' :: ("MISSING".data ++ (junk ++ '}' :: rest))))) =
        ("[" ++ toString m ++ "]").data ++
          (':' :: ' ' :: ("MISSING".data ++ (junk ++ '}' :: rest))) := by
      rw [hA]
      simp [List.append_assoc]
    rw [this, litPrefix_self]
  have hd2 : ∀ Z : List Char, (':' :: Z).dropWhile isPySpace = ':' :: Z :=
    fun Z => rfl
  have hlit3 : ∀ S : List Char, litPrefix (":".data) (':' :: S) = some S :=
    fun S => rfl
  have hd3 : ∀ X : List Char,
      (' ' :: ("MISSING".data ++ X)).dropWhile isPySpace = "MISSING".data ++ X :=
    fun X => rfl
  simp only [matchFNM, litPrefix_self, hd1, hlit2, hd2, hlit3, hd3,
    dropWhile_ne_append '}' rest h]

theorem matchFNM_not_lbrace {m : Nat} {c : Char} (t : List Char) (h : c ≠ '{') :
    matchFNM m (c :: t) = none := by
  unfold matchFNM
  rw [show ("\x7bFOOTNOTE".data : List Char) = '{' :: "FOOTNOTE".data from rfl]
  simp [litPrefix, h]

theorem substAll_match' {m : Nat} {cs rest : List Char} (repl : List Char)
    (h : matchFNM m cs = some rest) :
    substAll m repl cs = repl ++ substAll m repl rest := by
  cases cs with
  | nil =>
    exact Option.noConfusion ((rfl : matchFNM m [] = none).symm.trans h)
  | cons c t => exact substAll_match repl h

theorem substAll_clean {m : Nat} (repl : List Char) :
    ∀ clean rest : List Char, (∀ c ∈ clean, c ≠ '{') →
      substAll m repl (clean ++ rest) = clean ++ substAll m repl rest := by
  intro clean
  induction clean with
  | nil => intro rest _; rfl
  | cons c cl ih =>
    intro rest hcl
    have hc : c ≠ '{' := hcl c (List.mem_cons_self _ _)
    rw [List.cons_append, substAll_nomatch repl (matchFNM_not_lbrace _ hc)]
    rw [ih rest (fun x hx => hcl x (List.mem_cons_of_mem _ hx))]
    rfl

theorem substAll_canon {m : Nat} (repl junk rest : List Char) (h : '}' ∉ junk) :
    substAll m repl (canonSentinel m junk ++ rest) = repl ++ substAll m repl rest :=
  substAll_match' repl (matchFNM_canon m junk rest h)

/-- A healed text presented as an interleaving of clean segments
(`Sum.inl`, no `{`) and canonical sentinel annotations for marker `m`
(`Sum.inr`, the junk after the sentinel free of braces). -/
def renderSegs (m : Nat) : List (List Char ⊕ List Char) → List Char
  | [] => []
  | Sum.inl clean :: segs => clean ++ renderSegs m segs
  | Sum.inr junk :: segs => canonSentinel m junk ++ renderSegs m segs

/-- The same interleaving with every sentinel annotation replaced by a
fixed replacement text. -/
def renderSegsRepl (m : Nat) (repl : List Char) :
    List (List Char ⊕ List Char) → List Char
  | [] => []
  | Sum.inl clean :: segs => clean ++ renderSegsRepl m repl segs
  | Sum.inr _ :: segs => repl ++ renderSegsRepl m repl segs

/-- Well-formedness of one segment: a clean segment contains no `{`,
annotation junk contains no closing brace. -/
def segOk : List Char ⊕ List Char → Bool
  | Sum.inl clean => clean.all (fun c => c ≠ '{')
  | Sum.inr junk => junk.all (fun c => c ≠ '}')

/-- Well-formedness of the whole interleaving. -/
def SegsOk (segs : List (List Char ⊕ List Char)) : Prop :=
  ∀ s ∈ segs, segOk s = true

theorem substAll_renderSegs (m : Nat) (repl : List Char) :
    ∀ segs : List (List Char ⊕ List Char), SegsOk segs →
      substAll m repl (renderSegs m segs) = renderSegsRepl m repl segs := by
  intro segs
  induction segs with
  | nil => intro _; rfl
  | cons s t ih =>
    intro hok
    have hs := hok s (List.mem_cons_self _ _)
    have ht : SegsOk t := fun x hx => hok x (List.mem_cons_of_mem _ hx)
    cases s with
    | inl clean =>
      have hcl : ∀ c ∈ clean, c ≠ '{' := by
        intro c hc
        simpa using List.all_eq_true.mp hs c hc
      simp only [renderSegs, renderSegsRepl]
      rw [substAll_clean repl clean _ hcl, ih ht]
    | inr junk =>
      have hj : '}' ∉ junk := by
        intro hmem
        simpa using List.all_eq_true.mp hs _ hmem
      simp only [renderSegs, renderSegsRepl]
      rw [substAll_canon repl junk _ hj, ih ht]

/-- Claim C3, counterexample:  The backfill condition on the registry entry
is case-insensitive (`"MISSING" in text.upper()`), but the text-patching
pattern only matches the uppercase token directly after the colon.  With
the lowercase annotation `{FOOTNOTE [1]: data missing}` the registry
entry is replaced and marked `backfilled`, yet the annotation in the full
rewritten text is left untouched (it is not rewritten to the ground-truth
text, contradicting the claim). -/
theorem backfill_text_not_rewritten_counterexample :
    isMissing "data missing" = true ∧
    (backfillAll (buildRegistry [⟨1, "data missing", "linked"⟩])
        "\x7bFOOTNOTE [1]: data missing\x7d".data [(1, "Ground truth.")]).1 1 =
      some ⟨1, "Ground truth.", "backfilled"⟩ ∧
    (backfillAll (buildRegistry [⟨1, "data missing", "linked"⟩])
        "\x7bFOOTNOTE [1]: data missing\x7d".data [(1, "Ground truth.")]).2 =
      "\x7bFOOTNOTE [1]: data missing\x7d".data ∧
    containsSub "Ground truth.".data
      (backfillAll (buildRegistry [⟨1, "data missing", "linked"⟩])
        "\x7bFOOTNOTE [1]: data missing\x7d".data [(1, "Ground truth.")]).2 = false := by
  refine ⟨by decide, by decide, by decide, by decide⟩

/-- Claim C3, amended:  During the backfill pass, a marker whose registry
entry text contains the sentinel and which has a ground-truth definition
gets its entry replaced by the ground-truth text with status
`backfilled`; additionally every occurrence of that marker's *canonical*
sentinel annotation (the uppercase token directly after the colon, the
form the patching pattern matches) in the full rewritten text is
rewritten to `{FOOTNOTE [m]: <ground truth>}` — annotations that are
sentinel-flagged only case-insensitively or with the token elsewhere in
the text are left unchanged. -/
theorem backfill_patches_registry_and_text
    (reg : Nat → Option Footnote) (m : Nat) (d : String) (entry : Footnote)
    (segs : List (List Char ⊕ List Char))
    (hentry : reg m = some entry) (hmiss : isMissing entry.text = true)
    (hok : SegsOk segs) :
    backfillStep (reg, renderSegs m segs) (m, d) =
      (regSet reg ⟨m, d, "backfilled"⟩, renderSegsRepl m (mkRepl m d) segs) := by
  unfold backfillStep
  simp only [hentry, hmiss, if_true]
  rw [substAll_renderSegs m (mkRepl m d) segs hok]

/-- Witness for the amended C3: a concrete registry with a sentinel entry
for marker 1 and a text consisting of a clean segment followed by one
canonical sentinel annotation. -/
theorem backfill_patches_registry_and_text_witness :
    backfillStep
      (regSet (fun _ => none) ⟨1, "MISSING", "linked"⟩,
        renderSegs 1 [Sum.inl "Revenue grew. ".data, Sum.inr " content".data])
      (1, "Ground truth.") =
      (regSet (regSet (fun _ => none) ⟨1, "MISSING", "linked"⟩)
          ⟨1, "Ground truth.", "backfilled"⟩,
        renderSegsRepl 1 (mkRepl 1 "Ground truth.")
          [Sum.inl "Revenue grew. ".data, Sum.inr " content".data]) :=
  backfill_patches_registry_and_text _ 1 "Ground truth." ⟨1, "MISSING", "linked"⟩
    [Sum.inl "Revenue grew. ".data, Sum.inr " content".data]
    rfl (by decide)
    (by
      intro s hs
      rcases List.mem_cons.mp hs with rfl | hs
      · decide
      · rcases List.mem_cons.mp hs with rfl | hs
        · decide
        · simp at hs)

/-! ## Page batching reconstructs the document up to trailing whitespace
(claim C5) -/

theorem scanPages_flatten (cs : List Char) :
    ∃ w, (∀ c ∈ w, isPySpace c = true) ∧ (scanPages cs).flatten ++ w = cs := by
  suffices key : ∀ (n : Nat) (cs : List Char), cs.length ≤ n →
      ∃ w, (∀ c ∈ w, isPySpace c = true) ∧ (scanPages cs).flatten ++ w = cs from
    key cs.length cs le_rfl
  intro n
  induction n using Nat.strong_induction_on with
  | _ n ih =>
    intro cs hlen
    cases hs : splitFirstPage cs with
    | some pr =>
      obtain ⟨p, r⟩ := pr
      have hlt := splitFirstPage_length hs
      obtain ⟨hap, _⟩ := splitFirstPage_append hs
      obtain ⟨w, hw, hjoin⟩ := ih r.length (by omega) r le_rfl
      refine ⟨w, hw, ?_⟩
      rw [scanPages_some hs, List.flatten_cons, List.append_assoc, hjoin, hap]
    | none =>
      rw [scanPages_none hs]
      by_cases hany : cs.any (fun c => !isPySpace c) = true
      · refine ⟨[], by simp, ?_⟩
        simp [hany]
      · refine ⟨cs, ?_, ?_⟩
        · intro c hc
          have hfalse : cs.any (fun c => !isPySpace c) = false := by
            simpa using hany
          rw [List.any_eq_false] at hfalse
          simpa using hfalse c hc
        · simp [hany]

theorem scanPages_nonws (cs : List Char) :
    ∀ p ∈ scanPages cs, p.any (fun c => !isPySpace c) = true := by
  suffices key : ∀ (n : Nat) (cs : List Char), cs.length ≤ n →
      ∀ p ∈ scanPages cs, p.any (fun c => !isPySpace c) = true from
    key cs.length cs le_rfl
  intro n
  induction n using Nat.strong_induction_on with
  | _ n ih =>
    intro cs hlen p hp
    cases hs : splitFirstPage cs with
    | some pr =>
      obtain ⟨q, r⟩ := pr
      have hlt := splitFirstPage_length hs
      obtain ⟨_, hP⟩ := splitFirstPage_append hs
      rw [scanPages_some hs] at hp
      rcases List.mem_cons.mp hp with rfl | hp'
      · rw [List.any_eq_true]
        exact ⟨'P', hP, by decide⟩
      · exact ih r.length (by omega) r le_rfl p hp'
    | none =>
      rw [scanPages_none hs] at hp
      by_cases hany : cs.any (fun c => !isPySpace c) = true
      · rw [if_pos hany] at hp
        rcases List.mem_cons.mp hp with rfl | hp'
        · exact hany
        · simp at hp'
      · rw [if_neg hany] at hp
        simp at hp

theorem merge_foldl_flatten (maxSize : Nat) (pages : List (List Char)) :
    ∀ st : List (List Char) × List Char,
      (∀ p ∈ pages, p.any (fun c => !isPySpace c) = true) →
      (st.2 = [] ∨ st.2.any (fun c => !isPySpace c) = true) →
      ((pages.foldl (mergeStep maxSize) st).1.flatten ++
          (pages.foldl (mergeStep maxSize) st).2 =
        st.1.flatten ++ st.2 ++ pages.flatten) ∧
      ((pages.foldl (mergeStep maxSize) st).2 = [] ∨
        (pages.foldl (mergeStep maxSize) st).2.any (fun c => !isPySpace c) = true) := by
  induction pages with
  | nil =>
    intro st _ hcur
    exact ⟨by simp, hcur⟩
  | cons page t ih =>
    intro st hpages hcur
    have hpage : page.any (fun c => !isPySpace c) = true :=
      hpages page (List.mem_cons_self _ _)
    have hpages' : ∀ p ∈ t, p.any (fun c => !isPySpace c) = true :=
      fun p hp => hpages p (List.mem_cons_of_mem _ hp)
    rw [List.foldl_cons]
    by_cases hclose : st.2 ≠ [] ∧ st.2.length + page.length > maxSize
    · have hstep : mergeStep maxSize st page = (st.1 ++ [st.2], page) := by
        unfold mergeStep
        rw [if_pos hclose]
      rw [hstep]
      obtain ⟨hfl, hinv⟩ := ih (st.1 ++ [st.2], page) hpages' (Or.inr hpage)
      refine ⟨?_, hinv⟩
      rw [hfl]
      simp [List.append_assoc]
    · have hstep : mergeStep maxSize st page = (st.1, st.2 ++ page) := by
        unfold mergeStep
        rw [if_neg hclose]
      rw [hstep]
      have hcur' : st.2 ++ page = [] ∨
          (st.2 ++ page).any (fun c => !isPySpace c) = true := by
        right
        rw [List.any_append, hpage, Bool.or_true]
      obtain ⟨hfl, hinv⟩ := ih (st.1, st.2 ++ page) hpages' hcur'
      refine ⟨?_, hinv⟩
      rw [hfl]
      simp [List.append_assoc]

/-- Claim C5, amended:  Concatenating the sections produced by
`_page_aware_sections` reconstructs the document *up to a dropped
trailing whitespace-only remainder*: there is a whitespace-only suffix
`w` (the text after the last page marker when it is entirely whitespace,
otherwise empty) with `flatten (sections) ++ w = raw_text`. -/
theorem page_sections_reconstruct (maxSize : Nat) (cs : List Char) :
    ∃ w, (∀ c ∈ w, isPySpace c = true) ∧
      (pageAwareSections maxSize cs).flatten ++ w = cs := by
  obtain ⟨w, hw, hjoin⟩ := scanPages_flatten cs
  have hnws := scanPages_nonws cs
  obtain ⟨hfl, hinv⟩ :=
    merge_foldl_flatten maxSize (scanPages cs) ([], []) hnws (Or.inl rfl)
  have hfl' : ((scanPages cs).foldl (mergeStep maxSize) ([], [])).1.flatten ++
      ((scanPages cs).foldl (mergeStep maxSize) ([], [])).2 =
      (scanPages cs).flatten := by
    simpa using hfl
  refine ⟨w, hw, ?_⟩
  unfold pageAwareSections
  by_cases hany : ((scanPages cs).foldl (mergeStep maxSize) ([], [])).2.any
      (fun c => !isPySpace c) = true
  · rw [if_pos hany]
    rw [List.flatten_append, List.flatten_cons, List.flatten_nil, List.append_nil]
    rw [hfl']
    exact hjoin
  · rw [if_neg hany]
    have hemp : ((scanPages cs).foldl (mergeStep maxSize) ([], [])).2 = [] := by
      rcases hinv with he | hinv'
      · exact he
      · exact absurd hinv' hany
    rw [hemp, List.append_nil] at hfl'
    rw [hfl']
    exact hjoin

/-- Claim C5, counterexample:  On a document consisting of one space the
batcher drops the whitespace-only text entirely, so the concatenation of
the sections (the empty string) does not reconstruct the document. -/
theorem page_sections_not_exact_counterexample :
    (pageAwareSections 4500 " ".data).flatten ≠ " ".data := by decide

/-! ## Protection of annotation spans (claim C6) -/

theorem takeWhile_ne_append {junk : List Char} (b : Char) (rest : List Char)
    (h : b ∉ junk) :
    (junk ++ b :: rest).takeWhile (fun c => c ≠ b) = junk := by
  induction junk with
  | nil => simp [List.takeWhile]
  | cons j js ih =>
    have hj : j ≠ b := by
      intro he
      exact h (he ▸ List.mem_cons_self _ _)
    have ihr := ih (fun hm => h (List.mem_cons_of_mem _ hm))
    simp only [List.cons_append, List.takeWhile_cons]
    rw [if_pos (show (fun c => decide (c ≠ b)) j = true by simp [hj])]
    rw [ihr]

theorem matchFootSpan_canon (body rest : List Char) (h : '}' ∉ body) :
    matchFootSpan ("\x7bFOOTNOTE".data ++ (body ++ '}' :: rest)) =
      some ("\x7bFOOTNOTE".data ++ body ++ ['}'], rest) := by
  simp only [matchFootSpan, litPrefix_self, dropWhile_ne_append '}' rest h,
    takeWhile_ne_append '}' rest h]

theorem matchFootSpan_not_lbrace {c : Char} (t : List Char) (h : c ≠ '{') :
    matchFootSpan (c :: t) = none := by
  unfold matchFootSpan
  rw [show ("\x7bFOOTNOTE".data : List Char) = '{' :: "FOOTNOTE".data from rfl]
  simp [litPrefix, h]

theorem protect_match' {cs sp rest : List Char}
    (h : matchFootSpan cs = some (sp, rest)) :
    protect cs = sp.map protectChar ++ protect rest := by
  cases cs with
  | nil =>
    exact Option.noConfusion ((rfl : matchFootSpan [] = none).symm.trans h)
  | cons c t => exact protect_match h

theorem protect_clean :
    ∀ clean rest : List Char, (∀ c ∈ clean, c ≠ '{') →
      protect (clean ++ rest) = clean ++ protect rest := by
  intro clean
  induction clean with
  | nil => intro rest _; rfl
  | cons c cl ih =>
    intro rest hcl
    have hc : c ≠ '{' := hcl c (List.mem_cons_self _ _)
    rw [List.cons_append, protect_nomatch (matchFootSpan_not_lbrace _ hc)]
    rw [ih rest (fun x hx => hcl x (List.mem_cons_of_mem _ hx))]
    rfl

/-- An enriched text as an interleaving of clean segments (`Sum.inl`, no
`{`) and `{FOOTNOTE ...}` annotation spans (`Sum.inr` holds the span body
between `{FOOTNOTE` and the closing `}`, free of `}`). -/
def renderSpans : List (List Char ⊕ List Char) → List Char
  | [] => []
  | Sum.inl clean :: segs => clean ++ renderSpans segs
  | Sum.inr body :: segs => "\x7bFOOTNOTE".data ++ body ++ '}' :: renderSpans segs

/-- The same interleaving after the protection transform: every newline
inside a span body replaced by a space, clean text untouched. -/
def renderSpansProt : List (List Char ⊕ List Char) → List Char
  | [] => []
  | Sum.inl clean :: segs => clean ++ renderSpansProt segs
  | Sum.inr body :: segs =>
    "\x7bFOOTNOTE".data ++ body.map protectChar ++ '}' :: renderSpansProt segs

/-- Claim C6, amended:  The protection step of `enriched_chunker` rewrites
each annotation span in place, replacing exactly its internal newlines by
spaces and leaving all other text unchanged; afterwards no annotation
span contains a newline, so the paragraph- and line-level separators
(`"\n\n"`, `"\n"`) can never split a span.  (The sentence-, word- and
character-level fallback separators can still place a chunk boundary
inside a span — see the counterexample.) -/
theorem protect_spans_newline_free (segs : List (List Char ⊕ List Char))
    (hok : SegsOk segs) :
    protect (renderSpans segs) = renderSpansProt segs ∧
    ∀ body : List Char, '\n' ∉ body.map protectChar := by
  constructor
  · induction segs with
    | nil => rfl
    | cons s t ih =>
      have hs := hok s (List.mem_cons_self _ _)
      have ht : SegsOk t := fun x hx => hok x (List.mem_cons_of_mem _ hx)
      cases s with
      | inl clean =>
        have hcl : ∀ c ∈ clean, c ≠ '{' := by
          intro c hc
          simpa using List.all_eq_true.mp hs c hc
        simp only [renderSpans, renderSpansProt]
        rw [protect_clean clean _ hcl, ih ht]
      | inr body =>
        have hb : '}' ∉ body := by
          intro hmem
          simpa using List.all_eq_true.mp hs _ hmem
        simp only [renderSpans, renderSpansProt]
        rw [show "\x7bFOOTNOTE".data ++ body ++ '}' :: renderSpans t =
            "\x7bFOOTNOTE".data ++ (body ++ '}' :: renderSpans t) by
          simp [List.append_assoc]]
        rw [protect_match' (matchFootSpan_canon body (renderSpans t) hb)]
        rw [ih ht]
        simp only [List.map_append, List.append_assoc]
        rw [show ("\x7bFOOTNOTE".data : List Char).map protectChar =
          "\x7bFOOTNOTE".data from rfl]
        simp [protectChar]
  · intro body hmem
    rw [List.mem_map] at hmem
    obtain ⟨c, _, hc⟩ := hmem
    unfold protectChar at hc
    by_cases h : c = '\n' <;> simp [h] at hc

/-- Witness for the amended C6: a clean segment followed by a span whose
body contains a newline. -/
theorem protect_spans_newline_free_witness :
    protect (renderSpans [Sum.inl "Text. ".data, Sum.inr " [1]: a\nb".data]) =
      renderSpansProt [Sum.inl "Text. ".data, Sum.inr " [1]: a\nb".data] ∧
    ∀ body : List Char, '\n' ∉ body.map protectChar :=
  protect_spans_newline_free [Sum.inl "Text. ".data, Sum.inr " [1]: a\nb".data]
    (by
      intro s hs
      rcases List.mem_cons.mp hs with rfl | hs
      · decide
      · rcases List.mem_cons.mp hs with rfl | hs
        · decide
        · simp at hs)

set_option maxRecDepth 10000

/-- Claim C6, counterexample:  With the configured chunk size (800) the
boundary-protecting chunker still fractures an annotation span: on an
enriched text that is one 816-character `{FOOTNOTE ...}` span, some
produced chunk contains the opening `{FOOTNOTE` but no closing `}` — its
end boundary falls strictly inside the span. -/
theorem chunker_splits_inside_span_counterexample :
    (enrichedChunker
        (("\x7bFOOTNOTE [1]: " ++ String.join (List.replicate 400 "w ") ++ "\x7d").data)).any
      (fun ch => containsSub "\x7bFOOTNOTE".data ch && !ch.any (fun c => c = '}')) =
      true := by decide

/-! ## Multi-query deduplication (claim C7) -/

theorem dedup_foldl_spec :
    ∀ (docs : List (List Char)) (seen res : List (List Char)),
      (docs.foldl dedupStep (seen, res)).2 = res ++ specFirstOccur seen docs := by
  intro docs
  induction docs with
  | nil => intro seen res; simp [specFirstOccur]
  | cons d t ih =>
    intro seen res
    rw [List.foldl_cons]
    by_cases h : d.take 200 ∈ seen
    · have hstep : dedupStep (seen, res) d = (seen, res) := by
        unfold dedupStep
        rw [if_pos h]
      have hspec : specFirstOccur seen (d :: t) = specFirstOccur seen t := by
        show (if d.take 200 ∈ seen then specFirstOccur seen t
            else d :: specFirstOccur (d.take 200 :: seen) t) = specFirstOccur seen t
        rw [if_pos h]
      rw [hstep, hspec]
      exact ih seen res
    · have hstep : dedupStep (seen, res) d = (d.take 200 :: seen, res ++ [d]) := by
        unfold dedupStep
        rw [if_neg h]
      have hspec : specFirstOccur seen (d :: t) =
          d :: specFirstOccur (d.take 200 :: seen) t := by
        show (if d.take 200 ∈ seen then specFirstOccur seen t
            else d :: specFirstOccur (d.take 200 :: seen) t) =
          d :: specFirstOccur (d.take 200 :: seen) t
        rw [if_neg h]
      rw [hstep, hspec, ih (d.take 200 :: seen) (res ++ [d])]
      simp

theorem specFirstOccur_fresh :
    ∀ (docs seen : List (List Char)),
      List.Pairwise (fun a b => a.take 200 ≠ b.take 200)
        (specFirstOccur seen docs) ∧
      ∀ x ∈ specFirstOccur seen docs, x.take 200 ∉ seen := by
  intro docs
  induction docs with
  | nil => intro seen; simp [specFirstOccur]
  | cons d t ih =>
    intro seen
    unfold specFirstOccur
    by_cases h : d.take 200 ∈ seen
    · rw [if_pos h]
      exact ih seen
    · rw [if_neg h]
      obtain ⟨hpw, hfresh⟩ := ih (d.take 200 :: seen)
      constructor
      · rw [List.pairwise_cons]
        refine ⟨?_, hpw⟩
        intro b hb heq
        exact hfresh b hb (heq ▸ List.mem_cons_self _ _)
      · intro x hx
        rcases List.mem_cons.mp hx with rfl | hx'
        · exact h
        · intro hxs
          exact hfresh x hx' (List.mem_cons_of_mem _ hxs)

/-- Claim C7:  The multi-query deduplicator returns exactly the
first-occurrence filter (by first-200-character key) of the concatenated
per-query result lists — so the output order is the first-occurrence
order — and no two output items share the same first-200-character
prefix. -/
theorem multi_query_dedup_spec (retrieve : String → List (List Char))
    (queries : List String) :
    multiQueryRetrieve retrieve queries =
      specFirstOccur [] ((queries.map retrieve).flatten) ∧
    List.Pairwise (fun a b => a.take 200 ≠ b.take 200)
      (multiQueryRetrieve retrieve queries) := by
  have heq : multiQueryRetrieve retrieve queries =
      specFirstOccur [] ((queries.map retrieve).flatten) := by
    unfold multiQueryRetrieve
    rw [dedup_foldl_spec]
    simp
  exact ⟨heq, heq ▸ (specFirstOccur_fresh _ []).1⟩

/-! ## Cosine similarity (claim C9) -/

section AuditProofs

variable {α : Type} [LinearOrderedField α]

theorem le_foldl_sumSq (l : List α) :
    ∀ init : α, init ≤ l.foldl (fun s x => s + x * x) init := by
  induction l with
  | nil => intro init; exact le_rfl
  | cons x t ih =>
    intro init
    calc init ≤ init + x * x := le_add_of_nonneg_right (mul_self_nonneg x)
    _ ≤ t.foldl (fun s x => s + x * x) (init + x * x) := ih (init + x * x)

theorem sumSq_nonneg (a : List α) : 0 ≤ sumSq a := le_foldl_sumSq a 0

theorem foldl_sumSq_zeros (z : List α) (h : ∀ x ∈ z, x = 0) :
    ∀ init : α, z.foldl (fun s x => s + x * x) init = init := by
  induction z with
  | nil => intro init; rfl
  | cons x t ih =>
    intro init
    have hx : x = 0 := h x (List.mem_cons_self _ _)
    rw [List.foldl_cons, hx]
    rw [show init + (0 : α) * 0 = init by ring]
    exact ih (fun y hy => h y (List.mem_cons_of_mem _ hy)) init

theorem sumSq_zeros (z : List α) (h : ∀ x ∈ z, x = 0) : sumSq z = 0 :=
  foldl_sumSq_zeros z h 0

theorem mul_self_le_sumSq (a : List α) (x : α) (hx : x ∈ a) :
    x * x ≤ sumSq a := by
  obtain ⟨s, t, rfl⟩ := List.append_of_mem hx
  unfold sumSq
  rw [List.foldl_append, List.foldl_cons]
  calc x * x ≤ s.foldl (fun s x => s + x * x) 0 + x * x :=
        le_add_of_nonneg_left (le_foldl_sumSq s 0)
  _ ≤ t.foldl (fun s x => s + x * x)
        (s.foldl (fun s x => s + x * x) 0 + x * x) := le_foldl_sumSq t _

theorem zip_self_map (a : List α) : a.zip a = a.map (fun x => (x, x)) := by
  induction a with
  | nil => rfl
  | cons x t ih => simp [List.zip_cons_cons, ih]

theorem dotProd_self (a : List α) : dotProd a a = sumSq a := by
  unfold dotProd sumSq
  rw [zip_self_map, List.foldl_map]

end AuditProofs

/-- Claim C9:  The cosine similarity returns the dot product divided by the
product of the two magnitudes whenever both magnitudes are nonzero,
returns exactly `0` when either magnitude is zero — in particular the
similarity of any vector with an all-zero vector is `0` — and the
similarity of a nonzero vector with itself is exactly `1` in the real
model (the "within floating-point tolerance" of the code). -/
theorem cosine_similarity_spec :
    (∀ a b : List ℝ, Real.sqrt (sumSq a) ≠ 0 → Real.sqrt (sumSq b) ≠ 0 →
      cosineSimilarity Real.sqrt a b =
        dotProd a b / (Real.sqrt (sumSq a) * Real.sqrt (sumSq b))) ∧
    (∀ a b : List ℝ, Real.sqrt (sumSq a) = 0 ∨ Real.sqrt (sumSq b) = 0 →
      cosineSimilarity Real.sqrt a b = 0) ∧
    (∀ (a z : List ℝ), (∀ x ∈ z, x = 0) → cosineSimilarity Real.sqrt a z = 0) ∧
    (∀ a : List ℝ, (∃ x ∈ a, x ≠ 0) → cosineSimilarity Real.sqrt a a = 1) := by
  refine ⟨?_, ?_, ?_, ?_⟩
  · intro a b ha hb
    unfold cosineSimilarity
    rw [if_neg]
    push_neg
    exact ⟨ha, hb⟩
  · intro a b h
    unfold cosineSimilarity
    rw [if_pos h]
  · intro a z h
    unfold cosineSimilarity
    rw [if_pos]
    right
    rw [sumSq_zeros z h]
    exact Real.sqrt_zero
  · intro a ⟨x, hx, hxne⟩
    have hpos : 0 < sumSq a :=
      lt_of_lt_of_le (mul_self_pos.mpr hxne) (mul_self_le_sumSq a x hx)
    have hsqrt : Real.sqrt (sumSq a) ≠ 0 :=
      ne_of_gt (Real.sqrt_pos.mpr hpos)
    unfold cosineSimilarity
    rw [if_neg (by push_neg; exact ⟨hsqrt, hsqrt⟩)]
    rw [dotProd_self, Real.mul_self_sqrt (le_of_lt hpos)]
    exact div_self (ne_of_gt hpos)

/-- Witness for C9: similarity of `[3]` with the zero vector `[0]` is 0,
and self-similarity of `[1, 0]` is 1. -/
theorem cosine_similarity_spec_witness :
    cosineSimilarity Real.sqrt [(3 : ℝ)] [0] = 0 ∧
    cosineSimilarity Real.sqrt [(1 : ℝ), 0] [1, 0] = 1 :=
  ⟨cosine_similarity_spec.2.2.1 [3] [0] (by intro x hx; simpa using hx),
   cosine_similarity_spec.2.2.2 [1, 0] ⟨1, by simp, one_ne_zero⟩⟩

/-! ## The semantic novelty classifier (claim C8) -/

section DiffProofs

variable {α : Type} [LinearOrderedField α]

theorem foldl_max_lt_iff (l : List α) :
    ∀ a t : α, l.foldl max a < t ↔ a < t ∧ ∀ x ∈ l, x < t := by
  induction l with
  | nil => intro a t; simp
  | cons x xs ih =>
    intro a t
    rw [List.foldl_cons, ih]
    rw [max_lt_iff]
    constructor
    · rintro ⟨⟨hat, hxt⟩, hall⟩
      refine ⟨hat, ?_⟩
      intro y hy
      rcases List.mem_cons.mp hy with rfl | hy'
      · exact hxt
      · exact hall y hy'
    · rintro ⟨hat, hall⟩
      exact ⟨⟨hat, hall x (List.mem_cons_self _ _)⟩,
        fun y hy => hall y (List.mem_cons_of_mem _ hy)⟩

theorem maxSim_lt_iff (sqrt : α → α) (v : List α) (ts : List (List α)) (t : α) :
    maxSim sqrt v ts < t ↔
      (ts = [] ∧ 0 < t) ∨
      (ts ≠ [] ∧ ∀ w ∈ ts, cosineSimilarity sqrt v w < t) := by
  cases ts with
  | nil => simp [maxSim]
  | cons w ws =>
    unfold maxSim
    rw [foldl_max_lt_iff]
    constructor
    · rintro ⟨hw, hall⟩
      refine Or.inr ⟨by simp, ?_⟩
      intro u hu
      rcases List.mem_cons.mp hu with rfl | hu'
      · exact hw
      · exact hall _ (List.mem_map_of_mem _ hu')
    · rintro (⟨hbad, _⟩ | ⟨_, hall⟩)
      · exact absurd hbad (by simp)
      · refine ⟨hall w (List.mem_cons_self _ _), ?_⟩
        intro x hx
        rw [List.mem_map] at hx
        obtain ⟨u, hu, rfl⟩ := hx
        exact hall u (List.mem_cons_of_mem _ hu)

theorem mem_zip_map_snd {β : Type} (f : List α → β) :
    ∀ (l : List (List α)) (p : List α × β), p ∈ l.zip (l.map f) → p.2 = f p.1 := by
  intro l
  induction l with
  | nil => intro p hp; simp at hp
  | cons v t ih =>
    intro p hp
    rw [List.map_cons, List.zip_cons_cons] at hp
    rcases List.mem_cons.mp hp with rfl | hp'
    · rfl
    · exact ih p hp'

end DiffProofs

/-- Claim C8:  The novelty classifier returns two masks of the lengths of
the two sentence lists; the bit paired with each vector of side A is
`true` exactly when that vector's maximum cosine similarity against all
vectors of side B — `0` when B's vector list is empty, hence novel
whenever the threshold is positive — is strictly below the threshold,
and symmetrically for side B; on two empty inputs it returns two empty
masks.  The hypothesis is the embedding-service contract: one vector per
input string. -/
theorem semantic_diff_spec {α : Type} [LinearOrderedField α] (sqrt : α → α)
    (embed : List String → List (List α)) (sa sb : List String) (threshold : α)
    (hlen : (embed (sa ++ sb)).length = sa.length + sb.length) :
    (computeSemanticDiff sqrt embed sa sb threshold).1.length = sa.length ∧
    (computeSemanticDiff sqrt embed sa sb threshold).2.length = sb.length ∧
    (∀ p ∈ ((embed (sa ++ sb)).take sa.length).zip
        (computeSemanticDiff sqrt embed sa sb threshold).1,
      (p.2 = true ↔
        ((embed (sa ++ sb)).drop sa.length = [] ∧ 0 < threshold) ∨
        ((embed (sa ++ sb)).drop sa.length ≠ [] ∧
          ∀ w ∈ (embed (sa ++ sb)).drop sa.length,
            cosineSimilarity sqrt p.1 w < threshold))) ∧
    (∀ p ∈ ((embed (sa ++ sb)).drop sa.length).zip
        (computeSemanticDiff sqrt embed sa sb threshold).2,
      (p.2 = true ↔
        ((embed (sa ++ sb)).take sa.length = [] ∧ 0 < threshold) ∨
        ((embed (sa ++ sb)).take sa.length ≠ [] ∧
          ∀ w ∈ (embed (sa ++ sb)).take sa.length,
            cosineSimilarity sqrt p.1 w < threshold))) := by
  by_cases hemp : (sa ++ sb).isEmpty
  · have hsa : sa = [] := by
      rcases List.append_eq_nil.mp (List.isEmpty_iff.mp hemp) with ⟨h1, _⟩
      exact h1
    have hsb : sb = [] := by
      rcases List.append_eq_nil.mp (List.isEmpty_iff.mp hemp) with ⟨_, h2⟩
      exact h2
    have hcd : computeSemanticDiff sqrt embed sa sb threshold = ([], []) := by
      unfold computeSemanticDiff
      rw [if_pos hemp]
    rw [hcd, hsa, hsb]
    refine ⟨rfl, rfl, ?_, ?_⟩ <;> intro p hp <;> simp at hp
  · have hcd : computeSemanticDiff sqrt embed sa sb threshold =
        (((embed (sa ++ sb)).take sa.length).map
            (fun v => decide (maxSim sqrt v ((embed (sa ++ sb)).drop sa.length) <
              threshold)),
          ((embed (sa ++ sb)).drop sa.length).map
            (fun v => decide (maxSim sqrt v ((embed (sa ++ sb)).take sa.length) <
              threshold))) := by
      unfold computeSemanticDiff
      rw [if_neg hemp]
    rw [hcd]
    refine ⟨?_, ?_, ?_, ?_⟩
    · rw [List.length_map, List.length_take, hlen]
      omega
    · rw [List.length_map, List.length_drop, hlen]
      omega
    · intro p hp
      have := mem_zip_map_snd
        (fun v => decide (maxSim sqrt v ((embed (sa ++ sb)).drop sa.length) <
          threshold)) _ p hp
      rw [this, decide_eq_true_iff]
      exact maxSim_lt_iff sqrt p.1 _ threshold
    · intro p hp
      have := mem_zip_map_snd
        (fun v => decide (maxSim sqrt v ((embed (sa ++ sb)).take sa.length) <
          threshold)) _ p hp
      rw [this, decide_eq_true_iff]
      exact maxSim_lt_iff sqrt p.1 _ threshold

/-- Witness for C8 at a concrete stub embedding service over `ℚ`:
one sentence on side A, none on side B. -/
theorem semantic_diff_spec_witness :
    (computeSemanticDiff (fun q : ℚ => q) (fun l => l.map (fun _ => [(1 : ℚ)]))
        ["x"] [] 1).1.length = 1 ∧
    (computeSemanticDiff (fun q : ℚ => q) (fun l => l.map (fun _ => [(1 : ℚ)]))
        ["x"] [] 1).1 = [true] :=
  ⟨(semantic_diff_spec (fun q => q) (fun l => l.map (fun _ => [(1 : ℚ)]))
      ["x"] [] 1 rfl).1,
    by decide⟩

/-! ## Sentence segmenter invariants (claim C10) -/

theorem mergeShort_invariant :
    ∀ (parts acc : List (List Char)),
      (∀ q ∈ acc, q ≠ []) →
      (∀ q ∈ acc.dropLast, 30 ≤ q.length) →
      (∀ q ∈ mergeShort acc parts, q ≠ []) ∧
      ∀ q ∈ (mergeShort acc parts).tail, 30 ≤ q.length := by
  intro parts
  induction parts with
  | nil =>
    intro acc hne h30
    constructor
    · intro q hq
      exact hne q (List.mem_reverse.mp hq)
    · intro q hq
      rw [show (mergeShort acc []).tail = acc.reverse.tail from rfl,
        List.tail_reverse] at hq
      exact h30 q (List.mem_reverse.mp hq)
  | cons p ps ih =>
    intro acc hne h30
    cases acc with
    | nil =>
      have hstep : mergeShort [] (p :: ps) =
          (if (pyStrip p).isEmpty then mergeShort [] ps
           else mergeShort [pyStrip p] ps) := rfl
      rw [hstep]
      by_cases hq : (pyStrip p).isEmpty
      · rw [if_pos hq]
        exact ih [] hne h30
      · rw [if_neg hq]
        have hqne : pyStrip p ≠ [] := by
          intro he
          rw [he] at hq
          exact hq rfl
        refine ih [pyStrip p] ?_ ?_
        · intro q hqq
          rcases List.mem_cons.mp hqq with rfl | hbad
          · exact hqne
          · simp at hbad
        · intro q hqq
          simp [List.dropLast] at hqq
    | cons last rest =>
      have hstep : mergeShort (last :: rest) (p :: ps) =
          (if (pyStrip p).isEmpty then mergeShort (last :: rest) ps
           else if (pyStrip p).length < 30 then
             mergeShort ((last ++ ' ' :: pyStrip p) :: rest) ps
           else mergeShort (pyStrip p :: last :: rest) ps) := rfl
      rw [hstep]
      by_cases hq : (pyStrip p).isEmpty
      · rw [if_pos hq]
        exact ih (last :: rest) hne h30
      · rw [if_neg hq]
        have hqne : pyStrip p ≠ [] := by
          intro he
          rw [he] at hq
          exact hq rfl
        by_cases hlen : (pyStrip p).length < 30
        · rw [if_pos hlen]
          refine ih ((last ++ ' ' :: pyStrip p) :: rest) ?_ ?_
          · intro q hqq
            rcases List.mem_cons.mp hqq with rfl | hmem
            · intro he
              simpa using congrArg List.length he
            · exact hne q (List.mem_cons_of_mem _ hmem)
          · cases rest with
            | nil => intro q hqq; simp [List.dropLast] at hqq
            | cons r rs =>
              intro q hqq
              rw [show ((last ++ ' ' :: pyStrip p) :: r :: rs).dropLast =
                  (last ++ ' ' :: pyStrip p) :: (r :: rs).dropLast from rfl] at hqq
              rcases List.mem_cons.mp hqq with rfl | hmem
              · have hlast : 30 ≤ last.length := by
                  refine h30 last ?_
                  rw [show (last :: r :: rs).dropLast =
                    last :: (r :: rs).dropLast from rfl]
                  exact List.mem_cons_self _ _
                calc (30 : Nat) ≤ last.length := hlast
                _ ≤ (last ++ ' ' :: pyStrip p).length := by
                    simp [List.length_append]
              · refine h30 q ?_
                rw [show (last :: r :: rs).dropLast =
                  last :: (r :: rs).dropLast from rfl]
                exact List.mem_cons_of_mem _ hmem
        · rw [if_neg hlen]
          refine ih (pyStrip p :: last :: rest) ?_ ?_
          · intro q hqq
            rcases List.mem_cons.mp hqq with rfl | hmem
            · exact hqne
            · exact hne q hmem
          · intro q hqq
            rw [show (pyStrip p :: last :: rest).dropLast =
              pyStrip p :: (last :: rest).dropLast from rfl] at hqq
            rcases List.mem_cons.mp hqq with rfl | hmem
            · omega
            · exact h30 q hmem

/-- Claim C10:  The sentence segmenter never returns an empty string, and
every returned element except possibly the first has length at least 30:
a stripped fragment shorter than 30 characters that follows an existing
sentence is merged into its predecessor, so only the very first element
can be short. -/
theorem split_sentences_invariant (cs : List Char) :
    (splitSentences cs).all (fun p => !p.isEmpty) = true ∧
    ((splitSentences cs).tail).all (fun p => decide (30 ≤ p.length)) = true := by
  obtain ⟨hne, h30⟩ :=
    mergeShort_invariant (sentSplit (pyStrip cs)) [] (by simp) (by simp)
  constructor
  · rw [List.all_eq_true]
    intro p hp
    have := hne p hp
    simpa [List.isEmpty_iff] using this
  · rw [List.all_eq_true]
    intro p hp
    simpa using h30 p hp

end RagFootprint
